import Mathlib

/-!
Verification of the cozputer tiny CPU (src/cozputer.py).

Shallow embedding of the `TinyCPU` class.  The Python object holds

  * `memory` : a list of 256 integers, all initially `0` (`MEM_SIZE = 256`);
  * `prog`   : a deque of pending program bytes, popped from the front;
  * `robot`  : the output collaborator, used only through
               `robot.say_text(...)` whose completion value is discarded.

We model the mutable object as a record that is threaded through the
instruction handlers.  The `announces` field is the observation trace of the
values spoken by `ins_say` (the `announce` calls), recorded in order; it is
not a field of the Python object but the log of its only externally visible
output.  The robot collaborator itself is modelled as an `announce` function
`Nat → α` whose result is bound and dropped, exactly as
`say_text(...).wait_for_completed()` drops its result.

Python runtime errors that the interpreter can hit are made explicit:

  * `KeyError` from `self.INSTRUCTIONS[ins]` — `Err.unknownOpcode`;
  * `IndexError` from `popleft` on an empty deque — `Err.starvedOperand`;
  * `IndexError` from indexing `self.memory` out of range — `Err.outOfRange`.

A failing computation returns `.error (e, s)` where `s` is the interpreter
state at the moment the exception is raised (memory already committed by
earlier instructions persists, pops already performed are gone).
-/

set_option maxRecDepth 1000000

/-- The runtime errors the Python interpreter can raise. -/
inductive Err : Type where
  | unknownOpcode : Nat → Err
  | starvedOperand : Err
  | outOfRange : Err
deriving DecidableEq, Repr

/-- State of a `TinyCPU` instance: the 256-cell `memory` list, the `prog`
deque of pending bytes (head = front of the deque), and the trace of values
announced so far by SAY instructions. -/
structure TinyCPU : Type where
  memory : List Nat
  prog : List Nat
  announces : List Nat
deriving DecidableEq, Repr

/-- Model of `self.prog.popleft()`: pop the front byte, or raise `IndexError`
(`starvedOperand`) if the deque is empty. -/
def popOperand (s : TinyCPU) : Except (Err × TinyCPU) (Nat × TinyCPU) :=
  match s.prog with
  | [] => .error (.starvedOperand, s)
  | b :: rest => .ok (b, { s with prog := rest })

/-- The `ins_load` handler: pop `addr`, pop `val`, then
`self.memory[addr] = val`. -/
def ins_load (s : TinyCPU) : Except (Err × TinyCPU) TinyCPU :=
  match popOperand s with
  | .error e => .error e
  | .ok (addr, s1) =>
    match popOperand s1 with
    | .error e => .error e
    | .ok (val, s2) =>
      if addr < s2.memory.length then
        .ok { s2 with memory := s2.memory.set addr val }
      else
        .error (.outOfRange, s2)

/-- The `ins_add` handler: pop `x`, pop `y`, then
`self.memory[x] = self.memory[x] + self.memory[y]` (unbounded Python
integer addition, no wraparound). -/
def ins_add (s : TinyCPU) : Except (Err × TinyCPU) TinyCPU :=
  match popOperand s with
  | .error e => .error e
  | .ok (x, s1) =>
    match popOperand s1 with
    | .error e => .error e
    | .ok (y, s2) =>
      if hx : x < s2.memory.length then
        if hy : y < s2.memory.length then
          .ok { s2 with
                memory := s2.memory.set x (s2.memory.get ⟨x, hx⟩ + s2.memory.get ⟨y, hy⟩) }
        else
          .error (.outOfRange, s2)
      else
        .error (.outOfRange, s2)

/-- The `ins_say` handler: pop `addr`, then
`self.robot.say_text(str(self.memory[addr])).wait_for_completed()`.
The `announce` collaborator is invoked on the value and its completion
result is discarded; the spoken value is appended to the observation
trace. -/
def ins_say {α : Type} (announce : Nat → α) (s : TinyCPU) :
    Except (Err × TinyCPU) TinyCPU :=
  match popOperand s with
  | .error e => .error e
  | .ok (addr, s1) =>
    if h : addr < s1.memory.length then
      let _completed := announce (s1.memory.get ⟨addr, h⟩)
      .ok { s1 with announces := s1.announces ++ [s1.memory.get ⟨addr, h⟩] }
    else
      .error (.outOfRange, s1)

/-- The `ins_ret` handler: no-op. -/
def ins_ret (s : TinyCPU) : Except (Err × TinyCPU) TinyCPU :=
  .ok s

/-- The `INSTRUCTIONS` dispatch dict: opcode byte ↦ handler, `none` when the
key is absent (Python `KeyError`). -/
def INSTRUCTIONS {α : Type} (announce : Nat → α) (op : Nat) :
    Option (TinyCPU → Except (Err × TinyCPU) TinyCPU) :=
  if op = 0x10 then some ins_load
  else if op = 0x11 then some ins_add
  else if op = 0x12 then some (ins_say announce)
  else if op = 0x13 then some ins_ret
  else none

/-- The `run` loop, with explicit fuel: while the deque is non-empty, pop the
front byte as the opcode, look it up in `INSTRUCTIONS` and invoke the
handler.  Every loop iteration consumes at least the opcode byte, so
`s.prog.length` fuel always suffices (proved below in `runAux_congr_fuel`:
the result is the same under any larger fuel); the out-of-fuel branch
returning `.ok s` is unreachable at that fuel. -/
def runAux {α : Type} (announce : Nat → α) : Nat → TinyCPU →
    Except (Err × TinyCPU) TinyCPU
  | 0, s => .ok s
  | fuel + 1, s =>
    match s.prog with
    | [] => .ok s
    | op :: rest =>
      match INSTRUCTIONS announce op with
      | none => .error (.unknownOpcode op, { s with prog := rest })
      | some handler =>
        match handler { s with prog := rest } with
        | .error e => .error e
        | .ok s1 => runAux announce fuel s1

/-- Model of `run()`: drain the program deque.  The fuel `s.prog.length` is
exact because each iteration strictly shrinks the deque. -/
def run {α : Type} (announce : Nat → α) (s : TinyCPU) :
    Except (Err × TinyCPU) TinyCPU :=
  runAux announce s.prog.length s

/-- The trivial output sink used for concrete executions: announcing
produces only a completion token. -/
def unitSink : Nat → Unit := fun _ => ()

/-- A freshly constructed `TinyCPU`: 256 memory cells all zero, empty
program deque, nothing announced yet. -/
def mkCPU : TinyCPU :=
  { memory := List.replicate 256 0, prog := [], announces := [] }

/-- Model of `byte(b)`: append one byte onto the program queue. -/
def byte (s : TinyCPU) (b : Nat) : TinyCPU :=
  { s with prog := s.prog ++ [b] }

/-- Enqueue a list of bytes, front to back, onto a fresh `TinyCPU`. -/
def loadProgram (bs : List Nat) : TinyCPU :=
  bs.foldl byte mkCPU

/-- The instructions of the tiny ISA, as complete assembled units:
opcode byte plus all of its operand bytes. -/
inductive Instr : Type where
  | load : Nat → Nat → Instr
  | add : Nat → Nat → Instr
  | say : Nat → Instr
  | ret : Instr
deriving DecidableEq, Repr

/-- The byte encoding of one instruction, as fed to the program deque. -/
def Instr.bytes : Instr → List Nat
  | .load a _v => [0x10, a, _v]
  | .add x y => [0x11, x, y]
  | .say a => [0x12, a]
  | .ret => [0x13]

/-- An instruction is well formed when its operand addresses lie inside the
256-cell memory (the LOAD value byte is unconstrained: Python stores any
integer). -/
def Instr.wf : Instr → Prop
  | .load a _v => a < 256
  | .add x y => x < 256 ∧ y < 256
  | .say a => a < 256
  | .ret => True

instance (i : Instr) : Decidable i.wf := by
  cases i <;> simp only [Instr.wf] <;> infer_instance

/-- Assemble an instruction sequence into the flat byte list enqueued on the
program deque. -/
def flatten (l : List Instr) : List Nat :=
  (l.map Instr.bytes).flatten

/-- The effect of one well-formed instruction on the memory and the announce
trace, as a pure function. -/
def applyInstr (i : Instr) (m tr : List Nat) : List Nat × List Nat :=
  match i with
  | .load a v => (m.set a v, tr)
  | .add x y => (m.set x (m.getD x 0 + m.getD y 0), tr)
  | .say a => (m, tr ++ [m.getD a 0])
  | .ret => (m, tr)

/-- Run a whole instruction sequence as pure memory/trace transformations. -/
def execProg (l : List Instr) (m tr : List Nat) : List Nat × List Nat :=
  match l with
  | [] => (m, tr)
  | i :: rest => execProg rest (applyInstr i m tr).1 (applyInstr i m tr).2

/-- True exactly on the RET instruction. -/
def Instr.isRet : Instr → Bool
  | .ret => true
  | _ => false

/-- Drop every RET instruction from an instruction sequence. -/
def eraseRets (l : List Instr) : List Instr :=
  l.filter (fun i => !i.isRet)

/-- Value of the last LOAD pair targeting address `a` (last-write-wins in
program order), or the default `d` when no pair targets `a`. -/
def lastLoadVal (pairs : List (Nat × Nat)) (a : Nat) (d : Nat) : Nat :=
  pairs.foldl (fun acc q => if q.1 = a then q.2 else acc) d

/-! Handler evaluation lemmas: each handler computed on a deque carrying its
full operand list, with in-range addresses. -/

theorem ins_load_eval (m : List Nat) (a v : Nat) (p tr : List Nat)
    (ha : a < m.length) :
    ins_load ⟨m, a :: v :: p, tr⟩ = .ok ⟨m.set a v, p, tr⟩ := by
  simp [ins_load, popOperand, ha]

theorem ins_add_eval (m : List Nat) (x y : Nat) (p tr : List Nat)
    (hx : x < m.length) (hy : y < m.length) :
    ins_add ⟨m, x :: y :: p, tr⟩ =
      .ok ⟨m.set x (m.getD x 0 + m.getD y 0), p, tr⟩ := by
  simp [ins_add, popOperand, hx, hy, List.getD_eq_getElem]

theorem ins_say_eval {α : Type} (announce : Nat → α) (m : List Nat) (a : Nat)
    (p tr : List Nat) (ha : a < m.length) :
    ins_say announce ⟨m, a :: p, tr⟩ = .ok ⟨m, p, tr ++ [m.getD a 0]⟩ := by
  simp [ins_say, popOperand, ha, List.getD_eq_getElem]

theorem ins_ret_eval (s : TinyCPU) : ins_ret s = .ok s := rfl

/-! Every handler only pops from the deque: on success the remaining program
is no longer than before.  This justifies the fuel bound of `run`. -/

theorem ins_load_prog_le {s s1 : TinyCPU} (h : ins_load s = .ok s1) :
    s1.prog.length ≤ s.prog.length := by
  rcases s with ⟨m, p, tr⟩
  match p with
  | [] => simp [ins_load, popOperand] at h
  | [a] => simp [ins_load, popOperand] at h
  | a :: v :: rest =>
    simp only [ins_load, popOperand] at h
    split at h
    · cases h
      simp
      omega
    · cases h

theorem ins_add_prog_le {s s1 : TinyCPU} (h : ins_add s = .ok s1) :
    s1.prog.length ≤ s.prog.length := by
  rcases s with ⟨m, p, tr⟩
  match p with
  | [] => simp [ins_add, popOperand] at h
  | [x] => simp [ins_add, popOperand] at h
  | x :: y :: rest =>
    simp only [ins_add, popOperand] at h
    split at h
    · split at h
      · cases h
        simp
        omega
      · cases h
    · cases h

theorem ins_say_prog_le {α : Type} {announce : Nat → α} {s s1 : TinyCPU}
    (h : ins_say announce s = .ok s1) :
    s1.prog.length ≤ s.prog.length := by
  rcases s with ⟨m, p, tr⟩
  match p with
  | [] => simp [ins_say, popOperand] at h
  | a :: rest =>
    simp only [ins_say, popOperand] at h
    split at h
    · cases h
      simp
    · cases h

theorem ins_ret_prog_le {s s1 : TinyCPU} (h : ins_ret s = .ok s1) :
    s1.prog.length ≤ s.prog.length := by
  cases h
  exact le_refl _

theorem handler_prog_le {α : Type} (announce : Nat → α) {op : Nat}
    {f : TinyCPU → Except (Err × TinyCPU) TinyCPU}
    (hf : INSTRUCTIONS announce op = some f) {s s1 : TinyCPU}
    (h : f s = .ok s1) : s1.prog.length ≤ s.prog.length := by
  unfold INSTRUCTIONS at hf
  split_ifs at hf <;> cases hf
  · exact ins_load_prog_le h
  · exact ins_add_prog_le h
  · exact ins_say_prog_le h
  · exact ins_ret_prog_le h

/-- With an empty deque the loop exits immediately, whatever the fuel. -/
theorem runAux_nil {α : Type} (announce : Nat → α) (fuel : Nat) (s : TinyCPU)
    (h : s.prog = []) : runAux announce fuel s = .ok s := by
  cases fuel <;> simp [runAux, h]

/-- The fuel is irrelevant as soon as it covers the deque length: any
sufficient fuel computes the same result as the canonical `s.prog.length`.
This is the termination argument of the `while` loop: every iteration
consumes at least the opcode byte. -/
theorem runAux_congr_fuel {α : Type} (announce : Nat → α) :
    ∀ (n : Nat) (s : TinyCPU) (fuel : Nat),
      s.prog.length ≤ n → s.prog.length ≤ fuel →
      runAux announce fuel s = runAux announce s.prog.length s := by
  intro n
  induction n with
  | zero =>
    intro s fuel h _hf
    have hp : s.prog = [] := List.length_eq_zero.mp (Nat.le_zero.mp h)
    rw [runAux_nil announce fuel s hp, runAux_nil announce _ s hp]
  | succ n ih =>
    intro s fuel h hf
    rcases s with ⟨m, p, tr⟩
    cases p with
    | nil =>
      rw [runAux_nil announce fuel _ rfl, runAux_nil announce _ _ rfl]
    | cons op rest =>
      simp only [List.length_cons] at h hf ⊢
      cases fuel with
      | zero => omega
      | succ fuel =>
        show runAux announce (fuel + 1) ⟨m, op :: rest, tr⟩ =
          runAux announce (rest.length + 1) ⟨m, op :: rest, tr⟩
        simp only [runAux]
        cases hI : INSTRUCTIONS announce op with
        | none => rfl
        | some f =>
          cases hr : f ⟨m, rest, tr⟩ with
          | error e => simp only [hr]
          | ok s1 =>
            have hle : s1.prog.length ≤ rest.length :=
              handler_prog_le announce hI hr
            simp only [hr]
            rw [ih s1 fuel (by omega) (by omega),
                ih s1 rest.length (by omega) (by omega)]

/-- Any fuel at least the deque length computes `run`. -/
theorem run_eq_runAux {α : Type} (announce : Nat → α) (s : TinyCPU)
    (fuel : Nat) (h : s.prog.length ≤ fuel) :
    run announce s = runAux announce fuel s := by
  rw [run, runAux_congr_fuel announce fuel s fuel h h]

/-- One successful iteration of the `run` loop peeled off the front. -/
theorem run_cons {α : Type} (announce : Nat → α) (m : List Nat) (op : Nat)
    (rest tr : List Nat) {f : TinyCPU → Except (Err × TinyCPU) TinyCPU}
    (hf : INSTRUCTIONS announce op = some f) {s1 : TinyCPU}
    (hr : f ⟨m, rest, tr⟩ = .ok s1) :
    run announce ⟨m, op :: rest, tr⟩ = run announce s1 := by
  have hle : s1.prog.length ≤ rest.length := handler_prog_le announce hf hr
  show runAux announce (⟨m, op :: rest, tr⟩ : TinyCPU).prog.length _ = _
  simp only [List.length_cons, runAux, hf, hr]
  rw [run, runAux_congr_fuel announce rest.length s1 rest.length hle hle]

/-! Per-instruction step lemmas for `run`, and the simulation of the byte
interpreter by the pure instruction semantics `execProg`. -/

theorem run_load_step {α : Type} (announce : Nat → α) (m : List Nat)
    (a v : Nat) (p tr : List Nat) (ha : a < m.length) :
    run announce ⟨m, 0x10 :: a :: v :: p, tr⟩ = run announce ⟨m.set a v, p, tr⟩ :=
  run_cons announce m 0x10 (a :: v :: p) tr rfl (ins_load_eval m a v p tr ha)

theorem run_add_step {α : Type} (announce : Nat → α) (m : List Nat)
    (x y : Nat) (p tr : List Nat) (hx : x < m.length) (hy : y < m.length) :
    run announce ⟨m, 0x11 :: x :: y :: p, tr⟩ =
      run announce ⟨m.set x (m.getD x 0 + m.getD y 0), p, tr⟩ :=
  run_cons announce m 0x11 (x :: y :: p) tr rfl (ins_add_eval m x y p tr hx hy)

theorem run_say_step {α : Type} (announce : Nat → α) (m : List Nat)
    (a : Nat) (p tr : List Nat) (ha : a < m.length) :
    run announce ⟨m, 0x12 :: a :: p, tr⟩ =
      run announce ⟨m, p, tr ++ [m.getD a 0]⟩ :=
  run_cons announce m 0x12 (a :: p) tr rfl (ins_say_eval announce m a p tr ha)

theorem run_ret_step {α : Type} (announce : Nat → α) (m : List Nat)
    (p tr : List Nat) :
    run announce ⟨m, 0x13 :: p, tr⟩ = run announce ⟨m, p, tr⟩ :=
  run_cons announce m 0x13 p tr rfl rfl

theorem run_empty {α : Type} (announce : Nat → α) (m tr : List Nat) :
    run announce ⟨m, [], tr⟩ = .ok ⟨m, [], tr⟩ :=
  rfl

/-- `applyInstr` never changes the length of the memory list. -/
theorem applyInstr_memory_length (i : Instr) (m tr : List Nat) :
    (applyInstr i m tr).1.length = m.length := by
  cases i <;> simp [applyInstr]

theorem flatten_cons (i : Instr) (l : List Instr) :
    flatten (i :: l) = i.bytes ++ flatten l := by
  simp [flatten]

/-- Simulation: running the byte encoding of a well-formed instruction
sequence from memory `m` and trace `tr` succeeds, drains the deque, and
produces exactly the pure semantics `execProg`. -/
theorem run_flatten {α : Type} (announce : Nat → α) :
    ∀ (l : List Instr), (∀ i ∈ l, i.wf) → ∀ (m tr : List Nat),
      m.length = 256 →
      run announce ⟨m, flatten l, tr⟩ =
        .ok ⟨(execProg l m tr).1, [], (execProg l m tr).2⟩ := by
  intro l
  induction l with
  | nil =>
    intro _ m tr _
    exact run_empty announce m tr
  | cons i rest ih =>
    intro hwf m tr hm
    have hi : i.wf := hwf i (List.mem_cons_self i rest)
    have hrest : ∀ j ∈ rest, j.wf := fun j hj => hwf j (List.mem_cons_of_mem i hj)
    rw [flatten_cons]
    cases i with
    | load a v =>
      have ha : a < m.length := by rw [hm]; exact hi
      show run announce ⟨m, 0x10 :: a :: v :: flatten rest, tr⟩ = _
      rw [run_load_step announce m a v (flatten rest) tr ha]
      rw [ih hrest (m.set a v) tr (by simp [hm])]
      rfl
    | add x y =>
      have hx : x < m.length := by rw [hm]; exact hi.1
      have hy : y < m.length := by rw [hm]; exact hi.2
      show run announce ⟨m, 0x11 :: x :: y :: flatten rest, tr⟩ = _
      rw [run_add_step announce m x y (flatten rest) tr hx hy]
      rw [ih hrest (m.set x (m.getD x 0 + m.getD y 0)) tr (by simp [hm])]
      rfl
    | say a =>
      have ha : a < m.length := by rw [hm]; exact hi
      show run announce ⟨m, 0x12 :: a :: flatten rest, tr⟩ = _
      rw [run_say_step announce m a (flatten rest) tr ha]
      rw [ih hrest m (tr ++ [m.getD a 0]) hm]
      rfl
    | ret =>
      show run announce ⟨m, 0x13 :: flatten rest, tr⟩ = _
      rw [run_ret_step announce m (flatten rest) tr]
      rw [ih hrest m tr hm]
      rfl

/-- Erasure keeps a non-RET instruction at the head. -/
theorem eraseRets_cons_keep (i : Instr) (h : i.isRet = false) (l : List Instr) :
    eraseRets (i :: l) = i :: eraseRets l := by
  simp [eraseRets, List.filter_cons, h]

/-- Erasure drops a RET instruction at the head. -/
theorem eraseRets_cons_ret (l : List Instr) :
    eraseRets (Instr.ret :: l) = eraseRets l := by
  simp [eraseRets, List.filter_cons, Instr.isRet]

/-- RET is a semantic no-op: dropping every RET from an instruction sequence
does not change the pure semantics. -/
theorem execProg_eraseRets :
    ∀ (l : List Instr) (m tr : List Nat),
      execProg (eraseRets l) m tr = execProg l m tr := by
  intro l
  induction l with
  | nil => intro m tr; rfl
  | cons i rest ih =>
    intro m tr
    cases i with
    | ret =>
      rw [eraseRets_cons_ret]
      exact ih m tr
    | load a v =>
      rw [eraseRets_cons_keep (Instr.load a v) rfl]
      exact ih _ _
    | add x y =>
      rw [eraseRets_cons_keep (Instr.add x y) rfl]
      exact ih _ _
    | say a =>
      rw [eraseRets_cons_keep (Instr.say a) rfl]
      exact ih _ _

/-- Well-formedness survives the erasure of RETs. -/
theorem eraseRets_wf {l : List Instr} (h : ∀ i ∈ l, i.wf) :
    ∀ i ∈ eraseRets l, i.wf :=
  fun i hi => h i (List.mem_of_mem_filter hi)

/-- A sequence of LOAD instructions is a fold of `List.set` over memory and
leaves the announce trace alone. -/
theorem execProg_loads :
    ∀ (pairs : List (Nat × Nat)) (m tr : List Nat),
      execProg (pairs.map (fun q => Instr.load q.1 q.2)) m tr =
        (pairs.foldl (fun mm q => mm.set q.1 q.2) m, tr) := by
  intro pairs
  induction pairs with
  | nil => intro m tr; rfl
  | cons q rest ih =>
    intro m tr
    show execProg (rest.map (fun r => Instr.load r.1 r.2)) (m.set q.1 q.2) tr = _
    rw [ih (m.set q.1 q.2) tr]
    rfl

/-- Reading a cell after `List.set` at an in-range index. -/
theorem getD_set_lt (m : List Nat) (x v a : Nat) (hx : x < m.length) :
    (m.set x v).getD a 0 = if x = a then v else m.getD a 0 := by
  by_cases hxa : x = a
  · subst hxa
    simp [List.getD_eq_getD_get?, List.getElem?_set_eq_of_lt, hx]
  · simp [List.getD_eq_getD_get?, List.getElem?_set_ne, hxa]

/-- Last-write-wins for a fold of `List.set`, read back pointwise. -/
theorem foldl_set_getD :
    ∀ (pairs : List (Nat × Nat)) (m : List Nat),
      (∀ q ∈ pairs, q.1 < m.length) → ∀ a,
      (pairs.foldl (fun mm q => mm.set q.1 q.2) m).getD a 0 =
        lastLoadVal pairs a (m.getD a 0) := by
  intro pairs
  induction pairs with
  | nil => intro m _ a; rfl
  | cons q rest ih =>
    intro m hq a
    have hq1 : q.1 < m.length := hq q (List.mem_cons_self q rest)
    have hrest : ∀ r ∈ rest, r.1 < (m.set q.1 q.2).length := by
      intro r hr
      rw [List.length_set]
      exact hq r (List.mem_cons_of_mem q hr)
    show (rest.foldl (fun mm r => mm.set r.1 r.2) (m.set q.1 q.2)).getD a 0 = _
    rw [ih (m.set q.1 q.2) hrest a, getD_set_lt m q.1 q.2 a hq1]
    show _ = lastLoadVal rest a (if q.1 = a then q.2 else m.getD a 0)
    rfl

/-! The output collaborator cannot influence execution: its completion value
is discarded by `ins_say`, so any two collaborators (even with different
completion types) drive the interpreter through identical states. -/

theorem ins_say_sink_irrel {α β : Type} (a1 : Nat → α) (a2 : Nat → β)
    (s : TinyCPU) : ins_say a1 s = ins_say a2 s := by
  rcases s with ⟨m, p, tr⟩
  cases p with
  | nil => rfl
  | cons a rest =>
    by_cases h : a < m.length <;> simp [ins_say, popOperand, h]

/-- Congruence for one dispatch step under two sinks. -/
theorem match_handler_congr {α β : Type} (a1 : Nat → α) (a2 : Nat → β)
    (fuel : Nat) (ih : ∀ s, runAux a1 fuel s = runAux a2 fuel s)
    (f g : TinyCPU → Except (Err × TinyCPU) TinyCPU) (s : TinyCPU)
    (hfg : f s = g s) :
    (match f s with
     | Except.error e => (Except.error e : Except (Err × TinyCPU) TinyCPU)
     | Except.ok s1 => runAux a1 fuel s1) =
    (match g s with
     | Except.error e => Except.error e
     | Except.ok s1 => runAux a2 fuel s1) := by
  rw [← hfg]
  cases hr : f s with
  | error e => rfl
  | ok s1 => exact ih s1

theorem runAux_sink_irrel {α β : Type} (a1 : Nat → α) (a2 : Nat → β) :
    ∀ (fuel : Nat) (s : TinyCPU), runAux a1 fuel s = runAux a2 fuel s := by
  intro fuel
  induction fuel with
  | zero => intro s; rfl
  | succ fuel ih =>
    intro s
    rcases s with ⟨m, p, tr⟩
    cases p with
    | nil => rfl
    | cons op rest =>
      show runAux a1 (fuel + 1) ⟨m, op :: rest, tr⟩ =
        runAux a2 (fuel + 1) ⟨m, op :: rest, tr⟩
      simp only [runAux, INSTRUCTIONS]
      split_ifs
      · exact match_handler_congr a1 a2 fuel ih ins_load ins_load _ rfl
      · exact match_handler_congr a1 a2 fuel ih ins_add ins_add _ rfl
      · exact match_handler_congr a1 a2 fuel ih (ins_say a1) (ins_say a2) _
          (ins_say_sink_irrel a1 a2 _)
      · exact match_handler_congr a1 a2 fuel ih ins_ret ins_ret _ rfl
      · rfl

/-- Appending instruction sequences composes their pure semantics. -/
theorem execProg_append :
    ∀ (l1 l2 : List Instr) (m tr : List Nat),
      execProg (l1 ++ l2) m tr =
        execProg l2 (execProg l1 m tr).1 (execProg l1 m tr).2 := by
  intro l1
  induction l1 with
  | nil => intro l2 m tr; rfl
  | cons i rest ih =>
    intro l2 m tr
    exact ih l2 (applyInstr i m tr).1 (applyInstr i m tr).2

/-- C1: running the program bytes
`[0x10,0x00,0x17, 0x10,0x01,0x13, 0x11,0x00,0x01, 0x12,0x00, 0x13]` from a
freshly constructed interpreter (256 zero cells, empty queue) ends with
`memory[0x00] = 42`, `memory[0x01] = 19`, every other cell still zero (the
final memory is exactly the zero array with cells 0 and 1 overwritten), the
queue drained, and exactly one announce call, with value 42, in the trace —
for any output collaborator. -/
theorem C1_worked_example {α : Type} (announce : Nat → α) :
    run announce (loadProgram [0x10, 0x00, 0x17, 0x10, 0x01, 0x13,
                               0x11, 0x00, 0x01, 0x12, 0x00, 0x13]) =
      .ok { memory := ((List.replicate 256 0).set 0 42).set 1 19,
            prog := [], announces := [42] } := by
  have h : run announce (loadProgram [0x10, 0x00, 0x17, 0x10, 0x01, 0x13,
                                      0x11, 0x00, 0x01, 0x12, 0x00, 0x13]) =
      run unitSink (loadProgram [0x10, 0x00, 0x17, 0x10, 0x01, 0x13,
                                 0x11, 0x00, 0x01, 0x12, 0x00, 0x13]) :=
    runAux_sink_irrel announce unitSink _ _
  rw [h]
  rfl

/-- C2: executing ADD with operand addresses `x` and `y` in range stores at
`memory[x]` the exact natural-number sum of the two pre-state cells — no
modular wraparound; in particular a sum above 255 is stored above 255. -/
theorem C2_add_exact_sum (m : List Nat) (hm : m.length = 256) (x y : Nat)
    (hx : x < 256) (hy : y < 256) (p tr : List Nat) :
    ins_add ⟨m, x :: y :: p, tr⟩ =
      .ok ⟨m.set x (m.getD x 0 + m.getD y 0), p, tr⟩ ∧
    (m.set x (m.getD x 0 + m.getD y 0)).getD x 0 = m.getD x 0 + m.getD y 0 ∧
    (255 < m.getD x 0 + m.getD y 0 →
      255 < (m.set x (m.getD x 0 + m.getD y 0)).getD x 0) := by
  have hx1 : x < m.length := by omega
  have hy1 : y < m.length := by omega
  have hset : (m.set x (m.getD x 0 + m.getD y 0)).getD x 0 =
      m.getD x 0 + m.getD y 0 := by
    rw [getD_set_lt m x _ x hx1]
    simp
  exact ⟨ins_add_eval m x y p tr hx1 hy1, hset, fun hgt => by rw [hset]; exact hgt⟩

/-- Concrete memory state used by the witnesses: cell 0 holds 200, cell 1
holds 100, so an ADD overflows the byte range. -/
def memW : List Nat := ((List.replicate 256 0).set 0 200).set 1 100

theorem C2_add_exact_sum_witness :
    memW.length = 256 ∧ (0 : Nat) < 256 ∧ (1 : Nat) < 256 ∧
    (ins_add ⟨memW, 0 :: 1 :: [], []⟩ =
      .ok ⟨memW.set 0 (memW.getD 0 0 + memW.getD 1 0), [], []⟩ ∧
     (memW.set 0 (memW.getD 0 0 + memW.getD 1 0)).getD 0 0 =
       memW.getD 0 0 + memW.getD 1 0 ∧
     (255 < memW.getD 0 0 + memW.getD 1 0 →
       255 < (memW.set 0 (memW.getD 0 0 + memW.getD 1 0)).getD 0 0)) :=
  ⟨by simp [memW], by omega, by omega,
   C2_add_exact_sum memW (by simp [memW]) 0 1 (by omega) (by omega) [] []⟩

/-- C3: ADD with distinct in-range addresses `x ≠ y` mutates only
`memory[x]`: `memory[y]` and every cell other than `memory[x]` keep their
pre-instruction values. -/
theorem C3_add_frame (m : List Nat) (hm : m.length = 256) (x y : Nat)
    (hx : x < 256) (hy : y < 256) (hxy : x ≠ y) (p tr : List Nat) :
    ∃ m1, ins_add ⟨m, x :: y :: p, tr⟩ = .ok ⟨m1, p, tr⟩ ∧
      m1.get? y = m.get? y ∧ ∀ i, i ≠ x → m1.get? i = m.get? i := by
  have hx1 : x < m.length := by omega
  have hy1 : y < m.length := by omega
  refine ⟨m.set x (m.getD x 0 + m.getD y 0),
    ins_add_eval m x y p tr hx1 hy1, ?_, ?_⟩
  · simp [List.get?_eq_getElem?, List.getElem?_set_ne, hxy]
  · intro i hi
    have : x ≠ i := fun h => hi h.symm
    simp [List.get?_eq_getElem?, List.getElem?_set_ne, this]

theorem C3_add_frame_witness :
    memW.length = 256 ∧ (0 : Nat) < 256 ∧ (1 : Nat) < 256 ∧ (0 : Nat) ≠ 1 ∧
    (∃ m1, ins_add ⟨memW, 0 :: 1 :: [], []⟩ = .ok ⟨m1, [], []⟩ ∧
      m1.get? 1 = memW.get? 1 ∧ ∀ i, i ≠ 0 → m1.get? i = memW.get? i) :=
  ⟨by simp [memW], by omega, by omega, by omega,
   C3_add_frame memW (by simp [memW]) 0 1 (by omega) (by omega) (by omega) [] []⟩

/-- C4: SAY with an in-range operand address leaves the memory array
untouched — the post-state memory is the very same list — while announcing
the addressed value once. -/
theorem C4_say_pure {α : Type} (announce : Nat → α) (m : List Nat)
    (hm : m.length = 256) (a : Nat) (ha : a < 256) (p tr : List Nat) :
    ins_say announce ⟨m, a :: p, tr⟩ = .ok ⟨m, p, tr ++ [m.getD a 0]⟩ :=
  ins_say_eval announce m a p tr (by omega)

theorem C4_say_pure_witness :
    memW.length = 256 ∧ (0 : Nat) < 256 ∧
    ins_say unitSink ⟨memW, 0 :: [], []⟩ =
      .ok ⟨memW, [], [] ++ [memW.getD 0 0]⟩ :=
  ⟨by simp [memW], by omega,
   C4_say_pure unitSink memW (by simp [memW]) 0 (by omega) [] []⟩

/-- C5: for well-formed instruction sequences, inserting any number of RET
instructions (single bytes 0x13) at instruction boundaries — i.e. any two
well-formed sequences that agree after erasing RETs — leaves the entire
result of `run` unchanged: same final memory, same drained queue, same
announce trace, and the same error-freedom. -/
theorem C5_ret_insertion {α : Type} (announce : Nat → α) (l1 l2 : List Instr)
    (h1 : ∀ i ∈ l1, i.wf) (h2 : ∀ i ∈ l2, i.wf)
    (he : eraseRets l1 = eraseRets l2) (m tr : List Nat)
    (hm : m.length = 256) :
    run announce ⟨m, flatten l1, tr⟩ = run announce ⟨m, flatten l2, tr⟩ := by
  rw [run_flatten announce l1 h1 m tr hm, run_flatten announce l2 h2 m tr hm,
      ← execProg_eraseRets l1 m tr, ← execProg_eraseRets l2 m tr, he]

theorem C5_ret_insertion_witness :
    (∀ i ∈ [Instr.load 0 5], i.wf) ∧
    (∀ i ∈ [Instr.ret, Instr.load 0 5, Instr.ret], i.wf) ∧
    eraseRets [Instr.load 0 5] = eraseRets [Instr.ret, Instr.load 0 5, Instr.ret] ∧
    (List.replicate 256 0).length = 256 ∧
    run unitSink ⟨List.replicate 256 0, flatten [Instr.load 0 5], []⟩ =
      run unitSink ⟨List.replicate 256 0,
        flatten [Instr.ret, Instr.load 0 5, Instr.ret], []⟩ :=
  ⟨by decide, by decide, by decide, by simp,
   C5_ret_insertion unitSink [Instr.load 0 5]
     [Instr.ret, Instr.load 0 5, Instr.ret] (by decide) (by decide)
     (by decide) (List.replicate 256 0) [] (by simp)⟩

/-- C6: a program of valid LOADs followed by RET drains the queue without
error or announcement and leaves in each cell the value of the last LOAD
targeting it in program order; cells never targeted keep their initial
value (`lastLoadVal` returns the initial content when no pair targets
`a`). -/
theorem C6_last_write_wins {α : Type} (announce : Nat → α)
    (pairs : List (Nat × Nat)) (hp : ∀ q ∈ pairs, q.1 < 256)
    (m tr : List Nat) (hm : m.length = 256) (a : Nat) :
    ∃ mf, run announce
        ⟨m, flatten ((pairs.map fun q => Instr.load q.1 q.2) ++ [Instr.ret]), tr⟩ =
        .ok ⟨mf, [], tr⟩ ∧
      mf.getD a 0 = lastLoadVal pairs a (m.getD a 0) := by
  have hwf : ∀ i ∈ (pairs.map fun q => Instr.load q.1 q.2) ++ [Instr.ret], i.wf := by
    intro i hi
    rcases List.mem_append.mp hi with h | h
    · rcases List.mem_map.mp h with ⟨q, hq, rfl⟩
      exact hp q hq
    · rw [List.mem_singleton.mp h]
      trivial
  rw [run_flatten announce _ hwf m tr hm, execProg_append, execProg_loads]
  exact ⟨_, rfl, foldl_set_getD pairs m (fun q hq => by rw [hm]; exact hp q hq) a⟩

theorem C6_last_write_wins_witness :
    (∀ q ∈ [((0 : Nat), (7 : Nat)), (0, 9), (1, 3)], q.1 < 256) ∧
    (List.replicate 256 0).length = 256 ∧
    (∃ mf, run unitSink
        ⟨List.replicate 256 0,
         flatten (([((0 : Nat), (7 : Nat)), (0, 9), (1, 3)].map
            fun q => Instr.load q.1 q.2) ++ [Instr.ret]), []⟩ =
        .ok ⟨mf, [], []⟩ ∧
      mf.getD 0 0 = lastLoadVal [((0 : Nat), (7 : Nat)), (0, 9), (1, 3)] 0
        ((List.replicate 256 0).getD 0 0)) :=
  ⟨by decide, by simp,
   C6_last_write_wins unitSink [((0 : Nat), (7 : Nat)), (0, 9), (1, 3)]
     (by decide) (List.replicate 256 0) [] (by simp) 0⟩

/-- C7: enqueueing exactly `[0x10, 0x05]` (a LOAD starved of its value
operand) and running raises `starvedOperand`, with the memory at the moment
of the error identical, cell for cell, to the memory before `run` — no
partial LOAD happens, whatever the initial memory and trace. -/
theorem C7_starved_load {α : Type} (announce : Nat → α) (m tr : List Nat) :
    run announce ⟨m, [0x10, 0x05], tr⟩ =
      .error (.starvedOperand, ⟨m, [], tr⟩) :=
  rfl

/-- C8: enqueueing exactly `[0xFF]` — an opcode with no entry in the
`INSTRUCTIONS` table — and running raises `unknownOpcode 0xFF` before any
memory mutation: the error state carries the untouched memory. -/
theorem C8_unknown_opcode {α : Type} (announce : Nat → α) (m tr : List Nat) :
    run announce ⟨m, [0xFF], tr⟩ =
      .error (.unknownOpcode 0xFF, ⟨m, [], tr⟩) ∧
    INSTRUCTIONS announce 0xFF = none :=
  ⟨rfl, rfl⟩

/-- C9: on a well-formed program `run` terminates with the queue empty and
no error; the fuel `(flatten l).length` is exact — any sufficient fuel
computes the same result — because every loop iteration pops the opcode
byte and so strictly decreases the queue length. -/
theorem C9_termination {α : Type} (announce : Nat → α) (l : List Instr)
    (hl : ∀ i ∈ l, i.wf) (m tr : List Nat) (hm : m.length = 256) :
    (∃ mf trf, run announce ⟨m, flatten l, tr⟩ = .ok ⟨mf, [], trf⟩) ∧
    (∀ fuel, (flatten l).length ≤ fuel →
      runAux announce fuel ⟨m, flatten l, tr⟩ =
        run announce ⟨m, flatten l, tr⟩) ∧
    (∀ (s s1 : TinyCPU) (op : Nat) (rest : List Nat)
        (f : TinyCPU → Except (Err × TinyCPU) TinyCPU),
        s.prog = op :: rest → INSTRUCTIONS announce op = some f →
        f { s with prog := rest } = .ok s1 →
        s1.prog.length < s.prog.length) := by
  refine ⟨⟨_, _, run_flatten announce l hl m tr hm⟩, ?_, ?_⟩
  · intro fuel hf
    exact (run_eq_runAux announce ⟨m, flatten l, tr⟩ fuel hf).symm
  · intro s s1 op rest f hp hf hr
    have h1 : s1.prog.length ≤ rest.length := handler_prog_le announce hf hr
    rw [hp]
    simp only [List.length_cons]
    omega

theorem C9_termination_witness :
    (∀ i ∈ [Instr.ret], i.wf) ∧ (List.replicate 256 0).length = 256 ∧
    ((∃ mf trf, run unitSink ⟨List.replicate 256 0, flatten [Instr.ret], []⟩ =
        .ok ⟨mf, [], trf⟩) ∧
     (∀ fuel, (flatten [Instr.ret]).length ≤ fuel →
       runAux unitSink fuel ⟨List.replicate 256 0, flatten [Instr.ret], []⟩ =
         run unitSink ⟨List.replicate 256 0, flatten [Instr.ret], []⟩) ∧
     (∀ (s s1 : TinyCPU) (op : Nat) (rest : List Nat)
         (f : TinyCPU → Except (Err × TinyCPU) TinyCPU),
         s.prog = op :: rest → INSTRUCTIONS unitSink op = some f →
         f { s with prog := rest } = .ok s1 →
         s1.prog.length < s.prog.length)) :=
  ⟨by decide, by simp,
   C9_termination unitSink [Instr.ret] (by decide) (List.replicate 256 0) []
     (by simp)⟩

/-- C10: the interpreter is deterministic and the output sink's replies
have no influence: `run` is a pure function of the initial memory and
queue, and two runs under any two collaborators — even with different
completion types — yield the very same result, hence identical final
memory and identical announce sequences. -/
theorem C10_sink_independent {α β : Type} (ann1 : Nat → α) (ann2 : Nat → β)
    (s : TinyCPU) : run ann1 s = run ann2 s :=
  runAux_sink_irrel ann1 ann2 s.prog.length s

theorem C1_worked_example_witness :
    run unitSink (loadProgram [0x10, 0x00, 0x17, 0x10, 0x01, 0x13,
                               0x11, 0x00, 0x01, 0x12, 0x00, 0x13]) =
      .ok { memory := ((List.replicate 256 0).set 0 42).set 1 19,
            prog := [], announces := [42] } :=
  C1_worked_example unitSink

theorem C7_starved_load_witness :
    run unitSink ⟨List.replicate 256 0, [0x10, 0x05], []⟩ =
      .error (.starvedOperand, ⟨List.replicate 256 0, [], []⟩) :=
  C7_starved_load unitSink (List.replicate 256 0) []

theorem C8_unknown_opcode_witness :
    run unitSink ⟨List.replicate 256 0, [0xFF], []⟩ =
      .error (.unknownOpcode 0xFF, ⟨List.replicate 256 0, [], []⟩) ∧
    INSTRUCTIONS unitSink 0xFF = none :=
  C8_unknown_opcode unitSink (List.replicate 256 0) []

theorem C10_sink_independent_witness :
    run unitSink mkCPU = run (fun v => v) mkCPU :=
  C10_sink_independent unitSink (fun v => v) mkCPU
